import Mathlib

/-!
Shallow embedding of the rasterization pipeline of
`src/W03-05_Rasterizer` (files `src/point.py` and `src/rasterizer.py`).
Python floats are modelled by exact rationals; numpy whole-array
arithmetic on the 11-component vertex record is modelled pointwise on
functions out of `Fin 11`.
-/

namespace Rasterizer

/-- A vertex record, `point.py` class `Point`: a flat numeric vector
`[x, y, z, w, r, g, b, a, s, t, point_size]`. -/
abbrev Point : Type := Fin 11 → ℚ

/-- Default vertex: position `(0,0,0,1)`, color `(0,0,0,1)`,
texture coordinate `(0,0)`, point size `0` (`Point.__new__`). -/
def defaultPoint : Point := ![0, 0, 0, 1, 0, 0, 0, 1, 0, 0, 0]

/-- The `position` property: the slice `[0:4]` of the record. -/
def Point.position (p : Point) : Fin 4 → ℚ := fun j => p (Fin.castLE (by omega) j)

/-- The `position` setter: overwrite the slice `[0:4]`, keep the rest. -/
def Point.set_position (p : Point) (v : Fin 4 → ℚ) : Point :=
  fun i => if h : (i : ℕ) < 4 then v ⟨(i : ℕ), h⟩ else p i

/-- The method `Point.divide_by_w`: divide every component by `w = self[3]`,
then overwrite component 3 with `1/w`. -/
def Point.divide_by_w (p : Point) : Point :=
  Function.update (fun i => p i / p 3) 3 (1 / p 3)

/-- The method `Point.undo_divide_by_w`: save the position slice, divide the
whole record by `position.w`, then restore the saved position slice
(deliberately not touching x, y, z, w). -/
def Point.undo_divide_by_w (p : Point) : Point :=
  Point.set_position (fun i => p i / p 3) (Point.position p)

theorem point_apply_3 (p : Point) : Point.position p 3 = p 3 := rfl

/-- The six homogeneous frustum planes: the flat array `FRUSTUM` of
`rasterizer.py` reshaped to 6 rows of 4. -/
def FRUSTUM : Fin 6 → Fin 4 → ℚ :=
  ![![1, 0, 0, 1], ![-1, 0, 0, 1], ![0, 1, 0, 1],
    ![0, -1, 0, 1], ![0, 0, 1, 1], ![0, 0, -1, 1]]

/-- Signed distance `np.dot(plane, np.array(point.position))` used in
`Rasterizer.clip_triangle`. -/
def plane_distance (plane : Fin 4 → ℚ) (p : Point) : ℚ :=
  plane 0 * p 0 + plane 1 * p 1 + plane 2 * p 2 + plane 3 * p 3

/-- The local `points` list of `clip_triangle`: each vertex paired with its
signed distance to the chosen frustum plane. -/
def clip_points (triangle : List Point) (plane_index : Fin 6) : List (Point × ℚ) :=
  triangle.map (fun point => (point, plane_distance (FRUSTUM plane_index) point))

/-- The local `bad_points` list of `clip_triangle`: vertices with negative
signed distance. -/
def bad_points (triangle : List Point) (plane_index : Fin 6) : List (Point × ℚ) :=
  (clip_points triangle plane_index).filter (fun pd => pd.2 < 0)

/-- The local `good_points` list of `clip_triangle`: vertices with
non-negative signed distance. -/
def good_points (triangle : List Point) (plane_index : Fin 6) : List (Point × ℚ) :=
  (clip_points triangle plane_index).filter (fun pd => 0 ≤ pd.2)

/-- The linear-combination intersection
`(good_dist * bad_point - bad_dist * good_point) / (good_dist - bad_dist)`
of `clip_triangle`, applied to the full 11-component record. -/
def clip_lerp (good_dist bad_dist : ℚ) (good_point bad_point : Point) : Point :=
  fun i => (good_dist * bad_point i - bad_dist * good_point i) / (good_dist - bad_dist)

/-- The method `Rasterizer.clip_triangle`: clip one triangle against one
frustum plane. Python exceptions (the assert, the `good_points[0]` index
access, and the explicit `ValueError`) are modelled as `Except.error`. -/
def clip_triangle (triangle : List Point) (plane_index : Fin 6) :
    Except String (List (List Point)) :=
  match bad_points triangle plane_index with
  | [] => .ok [triangle]
  | [(bad_point, bad_dist)] =>
    let new_points :=
      (good_points triangle plane_index).flatMap
        (fun gd => [gd.1, clip_lerp gd.2 bad_dist gd.1 bad_point])
    if new_points.length = 4 then
      .ok [new_points.take 3, (new_points.drop 1).take 3]
    else
      .error "AssertionError"
  | [(bad1, dist1), (bad2, dist2)] =>
    match good_points triangle plane_index with
    | [] => .error "IndexError"
    | (good_point, good_dist) :: _ =>
      .ok [[good_point, clip_lerp good_dist dist1 good_point bad1,
            clip_lerp good_dist dist2 good_point bad2]]
  | [_, _, _] => .ok []
  | _ => .error "ValueError: Illegal number of positions!"

/-- One pass of the plane loop in `clip_and_draw_triangle`: clip every
triangle of the working list against plane `i`, concatenating the outputs. -/
def clip_pass (triangles : List (List Point)) (i : Fin 6) :
    Except String (List (List Point)) :=
  triangles.foldlM
    (fun clipped triangle => do
      let result ← clip_triangle triangle i
      pure (clipped ++ result))
    []

/-- The six-plane clipping loop of `clip_and_draw_triangle`
(`for plane_index in range(6)`). -/
def clip_all_planes (points : List Point) : Except String (List (List Point)) :=
  (List.finRange 6).foldlM clip_pass [points]

@[simp]
theorem except_ok_bind {ε α β : Type} (a : α) (f : α → Except ε β) :
    (Except.ok a : Except ε α) >>= f = f a := rfl

@[simp]
theorem except_pure_eq_ok {ε α : Type} (a : α) :
    (pure a : Except ε α) = Except.ok a := rfl

theorem filter_sign_split_length (l : List (Point × ℚ)) :
    (l.filter (fun pd => pd.2 < 0)).length +
      (l.filter (fun pd => 0 ≤ pd.2)).length = l.length := by
  induction l with
  | nil => simp
  | cons x xs ih =>
    by_cases hx : x.2 < 0
    · simp [List.filter_cons, hx, not_le.mpr hx]
      omega
    · simp [List.filter_cons, hx, not_lt.mp hx]
      omega

theorem bad_add_good_length (t : List Point) (i : Fin 6) :
    (bad_points t i).length + (good_points t i).length = t.length := by
  rw [bad_points, good_points, filter_sign_split_length, clip_points,
    List.length_map]

theorem clip_triangle_all_inside (t : List Point) (i : Fin 6)
    (h : ∀ pd ∈ clip_points t i, 0 ≤ pd.2) :
    clip_triangle t i = .ok [t] := by
  have hb : bad_points t i = [] := by
    rw [bad_points, List.filter_eq_nil_iff]
    intro pd hpd
    simp [not_lt.mpr (h pd hpd)]
  rw [clip_triangle, hb]

/-- Round trip of the two operations on the attribute components. -/
theorem undo_divide_attrs (p : Point) (hw : p 3 ≠ 0) (i : Fin 11) (hi : 4 ≤ (i : ℕ)) :
    Point.undo_divide_by_w (Point.divide_by_w p) i = p i := by
  have h3 : (Point.divide_by_w p) 3 = 1 / p 3 := by
    simp [Point.divide_by_w]
  have hne : i ≠ 3 := by
    intro h
    rw [h] at hi
    exact absurd hi (by decide)
  have hval : (Point.divide_by_w p) i = p i / p 3 := by
    rw [Point.divide_by_w, Function.update_noteq hne]
  simp only [Point.undo_divide_by_w, Point.set_position]
  rw [dif_neg (by omega)]
  rw [hval, h3]
  field_simp

/-- Claim C10: in `clip_triangle`, a vertex whose signed distance is exactly
zero is classified as inside (in `good_points`, never in `bad_points`);
the inside/outside counts always sum to 3 for a 3-vertex triangle; a triangle
with all distances non-negative is returned unchanged; and the
illegal-classification `ValueError` branch is unreachable: the result is
always `Except.ok`. -/
theorem clip_triangle_total (t : List Point) (i : Fin 6) (h3 : t.length = 3) :
    (∀ pd ∈ clip_points t i, pd.2 = 0 →
      pd ∈ good_points t i ∧ pd ∉ bad_points t i) ∧
    (bad_points t i).length + (good_points t i).length = 3 ∧
    ((∀ pd ∈ clip_points t i, 0 ≤ pd.2) → clip_triangle t i = Except.ok [t]) ∧
    ∃ r, clip_triangle t i = Except.ok r := by
  have hsum := bad_add_good_length t i
  rw [h3] at hsum
  refine ⟨?_, hsum, fun h => clip_triangle_all_inside t i h, ?_⟩
  · intro pd hpd hz
    constructor
    · exact List.mem_filter.mpr ⟨hpd, by simp [hz]⟩
    · intro hmem
      have := (List.mem_filter.mp hmem).2
      simp [hz] at this
  rcases hb : bad_points t i with _ | ⟨⟨b1, d1⟩, _ | ⟨⟨b2, d2⟩, _ | ⟨⟨b3, d3⟩, bs⟩⟩⟩
  · exact ⟨[t], by rw [clip_triangle, hb]⟩
  · rw [hb] at hsum
    have hglen : (good_points t i).length = 2 := by
      simp only [List.length_cons, List.length_nil] at hsum
      omega
    obtain ⟨g1, g2, hg⟩ := List.length_eq_two.mp hglen
    exact ⟨_, by rw [clip_triangle, hb, hg]; rfl⟩
  · rw [hb] at hsum
    have hglen : (good_points t i).length = 1 := by
      simp only [List.length_cons, List.length_nil] at hsum
      omega
    obtain ⟨g, hg⟩ := List.length_eq_one.mp hglen
    obtain ⟨gp, gd⟩ := g
    exact ⟨_, by rw [clip_triangle, hb, hg]⟩
  · rw [hb] at hsum
    have hbs : bs = [] := by
      simp only [List.length_cons] at hsum
      exact List.eq_nil_of_length_eq_zero (by omega)
    subst hbs
    exact ⟨[], by rw [clip_triangle, hb]⟩

/-- Witness for claim C10 at a concrete triangle of three default vertices
against plane 0. -/
theorem clip_triangle_total_witness :
    ([defaultPoint, defaultPoint, defaultPoint].length = 3) ∧
      (bad_points [defaultPoint, defaultPoint, defaultPoint] 0).length +
        (good_points [defaultPoint, defaultPoint, defaultPoint] 0).length = 3 :=
  ⟨rfl, (clip_triangle_total [defaultPoint, defaultPoint, defaultPoint] 0 rfl).2.1⟩

/-- Claim C5: when exactly one vertex of a triangle is outside the plane
(negative signed distance), `clip_triangle` returns exactly two triangles:
each inside vertex is kept and contributes the linear-combination
intersection with the outside vertex, and the two triangles are indices
`[0,1,2]` and `[1,2,3]` of the list `[good0, new0, good1, new1]`. -/
theorem clip_triangle_one_outside
    (p0 p1 p2 : Point) (i : Fin 6) (b g0 g1 : Point) (db dg0 dg1 : ℚ)
    (hbad : bad_points [p0, p1, p2] i = [(b, db)])
    (hgood : good_points [p0, p1, p2] i = [(g0, dg0), (g1, dg1)]) :
    clip_triangle [p0, p1, p2] i =
      Except.ok [[g0, clip_lerp dg0 db g0 b, g1],
        [clip_lerp dg0 db g0 b, g1, clip_lerp dg1 db g1 b]] := by
  rw [clip_triangle, hbad, hgood]
  rfl

/-- Concrete clip witnesses: position `(1,0,0,1)`, default attributes. -/
def clipSampleA : Point := ![1, 0, 0, 1, 0, 0, 0, 1, 0, 0, 0]

/-- Concrete clip witness: position `(0,1,0,1)`, default attributes. -/
def clipSampleB : Point := ![0, 1, 0, 1, 0, 0, 0, 1, 0, 0, 0]

/-- Concrete clip witness: position `(-3,0,0,1)`, default attributes,
outside plane 0 (`x + w = -2 < 0`). -/
def clipSampleC : Point := ![-3, 0, 0, 1, 0, 0, 0, 1, 0, 0, 0]

/-- Witness for claim C5: clipping the concrete triangle `(A, B, C)` against
plane 0, where only `C` is outside, yields the two predicted triangles. -/
theorem clip_triangle_one_outside_witness :
    bad_points [clipSampleA, clipSampleB, clipSampleC] 0 = [(clipSampleC, -2)] ∧
    good_points [clipSampleA, clipSampleB, clipSampleC] 0 =
      [(clipSampleA, 2), (clipSampleB, 1)] ∧
    clip_triangle [clipSampleA, clipSampleB, clipSampleC] 0 =
      Except.ok
        [[clipSampleA, clip_lerp 2 (-2) clipSampleA clipSampleC, clipSampleB],
         [clip_lerp 2 (-2) clipSampleA clipSampleC, clipSampleB,
          clip_lerp 1 (-2) clipSampleB clipSampleC]] := by
  have dA : plane_distance (FRUSTUM 0) clipSampleA = 2 := by
    show (1 : ℚ) * 1 + 0 * 0 + 0 * 0 + 1 * 1 = 2
    norm_num
  have dB : plane_distance (FRUSTUM 0) clipSampleB = 1 := by
    show (1 : ℚ) * 0 + 0 * 1 + 0 * 0 + 1 * 1 = 1
    norm_num
  have dC : plane_distance (FRUSTUM 0) clipSampleC = -2 := by
    show (1 : ℚ) * (-3) + 0 * 0 + 0 * 0 + 1 * 1 = -2
    norm_num
  have hcp : clip_points [clipSampleA, clipSampleB, clipSampleC] 0 =
      [(clipSampleA, 2), (clipSampleB, 1), (clipSampleC, -2)] := by
    simp only [clip_points, List.map_cons, List.map_nil]
    rw [dA, dB, dC]
  have hbad : bad_points [clipSampleA, clipSampleB, clipSampleC] 0 =
      [(clipSampleC, -2)] := by
    rw [bad_points, hcp]
    norm_num [List.filter_cons, decide_eq_true_eq]
  have hgood : good_points [clipSampleA, clipSampleB, clipSampleC] 0 =
      [(clipSampleA, 2), (clipSampleB, 1)] := by
    rw [good_points, hcp]
    norm_num [List.filter_cons, decide_eq_true_eq]
  exact ⟨hbad, hgood,
    clip_triangle_one_outside clipSampleA clipSampleB clipSampleC 0
      clipSampleC clipSampleA clipSampleB (-2) 2 1 hbad hgood⟩

/-- Claim C7: a triangle whose three vertices all have non-negative signed
distance to all six frustum planes passes through the sequential six-plane
clipping loop unchanged: the loop returns exactly the original triangle. -/
theorem clip_all_planes_fully_inside (p0 p1 p2 : Point)
    (h : ∀ i : Fin 6, ∀ p ∈ [p0, p1, p2], 0 ≤ plane_distance (FRUSTUM i) p) :
    clip_all_planes [p0, p1, p2] = Except.ok [[p0, p1, p2]] := by
  have hstep : ∀ i : Fin 6,
      clip_pass [[p0, p1, p2]] i = Except.ok [[p0, p1, p2]] := by
    intro i
    have hc : clip_triangle [p0, p1, p2] i = Except.ok [[p0, p1, p2]] := by
      apply clip_triangle_all_inside
      intro pd hpd
      obtain ⟨p, hp, rfl⟩ := List.mem_map.mp hpd
      exact h i p hp
    simp [clip_pass, List.foldlM, hc]
  rw [clip_all_planes]
  rw [show List.finRange 6 = [0, 1, 2, 3, 4, 5] by decide]
  simp only [List.foldlM, hstep, except_ok_bind, except_pure_eq_ok]

/-- Witness for claim C7 at a concrete (degenerate) triangle of three default
vertices, each at distance 1 from every frustum plane. -/
theorem clip_all_planes_fully_inside_witness :
    (∀ i : Fin 6, ∀ p ∈ [defaultPoint, defaultPoint, defaultPoint],
      0 ≤ plane_distance (FRUSTUM i) p) ∧
    clip_all_planes [defaultPoint, defaultPoint, defaultPoint] =
      Except.ok [[defaultPoint, defaultPoint, defaultPoint]] := by
  have hval : ∀ i : Fin 6, plane_distance (FRUSTUM i) defaultPoint = FRUSTUM i 3 := by
    intro i
    show FRUSTUM i 0 * 0 + FRUSTUM i 1 * 0 + FRUSTUM i 2 * 0 + FRUSTUM i 3 * 1 =
      FRUSTUM i 3
    ring
  have hrow : ∀ i : Fin 6, FRUSTUM i 3 = 1 := by decide
  have h : ∀ i : Fin 6, ∀ p ∈ [defaultPoint, defaultPoint, defaultPoint],
      0 ≤ plane_distance (FRUSTUM i) p := by
    intro i p hp
    have hpd : p = defaultPoint := by
      simp only [List.mem_cons, List.not_mem_nil, or_false] at hp
      rcases hp with hp | hp | hp <;> exact hp
    rw [hpd, hval i, hrow i]
    norm_num
  exact ⟨h, clip_all_planes_fully_inside defaultPoint defaultPoint defaultPoint h⟩

/-- The while loop of `Rasterizer.dda`: yield the current point, then step,
while the walk-dimension coordinate is below the upper endpoint. The caller
passes the fact that the step is 1 in the walk dimension, which makes the
loop terminate. -/
def ddaLoop (stp : Point) (bd : ℚ) (dim : Fin 11) (hstep : stp dim = 1)
    (p : Point) : List Point :=
  if hlt : p dim < bd then p :: ddaLoop stp bd dim hstep (p + stp) else []
termination_by (⌊bd⌋ - ⌊p dim⌋ + 1).toNat
decreasing_by
  have hd : (p + stp) dim = p dim + 1 := by rw [Pi.add_apply, hstep]
  have h1 : ⌊p dim⌋ ≤ ⌊bd⌋ := Int.floor_le_floor (le_of_lt hlt)
  rw [hd, Int.floor_add_one]
  omega

/-- The tail of `Rasterizer.dda` once `a` is the lower endpoint in the walk
dimension: compute `delta`, `step = delta / delta[dimension]`, apply the
ceil-fractional offset once, and run the emission loop. -/
def dda_sorted (a b : Point) (dim : Fin 11) (h : a dim < b dim) : List Point :=
  ddaLoop (fun i => (b - a) i / (b - a) dim) (b dim) dim
    (by
      have hne : (b - a) dim ≠ 0 := by
        rw [Pi.sub_apply]
        exact sub_ne_zero.mpr (ne_of_gt h)
      show (b - a) dim / (b - a) dim = 1
      exact div_self hne)
    (a + (((⌈a dim⌉ : ℚ) - a dim) • fun i => (b - a) i / (b - a) dim))

/-- The static method `Rasterizer.dda`: no samples for a degenerate edge,
otherwise swap so the walk goes from the lower to the higher endpoint and
emit. -/
def dda (a b : Point) (dim : Fin 11) : List Point :=
  if heq : a dim = b dim then []
  else if hgt : b dim < a dim then dda_sorted b a dim hgt
  else dda_sorted a b dim (lt_of_le_of_ne (not_lt.mp hgt) heq)

/-- Modelled from the claim wording: the endpoint with the lower
walk-dimension coordinate (the swap in `dda`). -/
def spec_lo (a b : Point) (dim : Fin 11) : Point := if b dim < a dim then b else a

/-- Modelled from the claim wording: the endpoint with the higher
walk-dimension coordinate. -/
def spec_hi (a b : Point) (dim : Fin 11) : Point := if b dim < a dim then a else b

/-- Modelled from the claim wording: the per-sample step
`(hi - lo) / (hi_d - lo_d)` over the full attribute vector. -/
def spec_step (a b : Point) (dim : Fin 11) : Point :=
  fun i => (spec_hi a b dim i - spec_lo a b dim i) /
    (spec_hi a b dim dim - spec_lo a b dim dim)

/-- Modelled from the claim wording: the number of integer grid values
`ceil(lo_d) + k` strictly below `hi_d`. -/
def spec_count (a b : Point) (dim : Fin 11) : ℕ :=
  (⌈spec_hi a b dim dim⌉ - ⌈spec_lo a b dim dim⌉).toNat

/-- Modelled from the claim wording: the k-th sample, the lower endpoint plus
the ceil-fractional offset plus k steps. -/
def spec_sample (a b : Point) (dim : Fin 11) (k : ℕ) : Point :=
  spec_lo a b dim +
    (((⌈spec_lo a b dim dim⌉ : ℚ) - spec_lo a b dim dim) + (k : ℚ)) •
      spec_step a b dim

/-- Modelled from the claim wording: the full sample list of an edge walk. -/
def spec_dda_samples (a b : Point) (dim : Fin 11) : List Point :=
  (List.range (spec_count a b dim)).map (spec_sample a b dim)

theorem ddaLoop_unroll (stp : Point) (bd : ℚ) (dim : Fin 11)
    (hstep : stp dim = 1) :
    ∀ (n : ℕ) (p : Point) (c : ℤ), p dim = (c : ℚ) → (⌈bd⌉ - c).toNat = n →
      ddaLoop stp bd dim hstep p =
        (List.range n).map (fun k : ℕ => p + (k : ℚ) • stp) := by
  intro n
  induction n with
  | zero =>
    intro p c hc hn
    have hle : ⌈bd⌉ ≤ c := by omega
    have hbc : bd ≤ (c : ℚ) := Int.ceil_le.mp hle
    rw [ddaLoop]
    rw [dif_neg (by rw [hc]; exact not_lt.mpr hbc)]
    simp
  | succ n ih =>
    intro p c hc hn
    have hlt : c < ⌈bd⌉ := by omega
    have hpb : p dim < bd := by rw [hc]; exact Int.lt_ceil.mp hlt
    rw [ddaLoop, dif_pos hpb]
    have hc2 : (p + stp) dim = ((c + 1 : ℤ) : ℚ) := by
      rw [Pi.add_apply, hstep, hc]
      push_cast
      ring
    have hn2 : (⌈bd⌉ - (c + 1)).toNat = n := by omega
    rw [ih (p + stp) (c + 1) hc2 hn2]
    rw [List.range_succ_eq_map, List.map_cons, List.map_map]
    congr 1
    · rw [Nat.cast_zero, zero_smul, add_zero]
    · apply List.map_congr_left
      intro k _
      show (p + stp) + (k : ℚ) • stp = p + ((k + 1 : ℕ) : ℚ) • stp
      push_cast
      rw [add_smul, one_smul]
      abel

theorem dda_sorted_unroll (a b : Point) (dim : Fin 11) (h : a dim < b dim) :
    dda_sorted a b dim h =
      (List.range ((⌈b dim⌉ - ⌈a dim⌉).toNat)).map
        (fun k : ℕ =>
          (a + (((⌈a dim⌉ : ℚ) - a dim) • fun i => (b - a) i / (b - a) dim)) +
            (k : ℚ) • fun i => (b - a) i / (b - a) dim) := by
  rw [dda_sorted]
  have hstep2 : (b - a) dim / (b - a) dim = 1 := by
    apply div_self
    rw [Pi.sub_apply]
    exact sub_ne_zero.mpr (ne_of_gt h)
  apply ddaLoop_unroll _ _ _ _ _ _ ⌈a dim⌉ _ rfl
  rw [Pi.add_apply, Pi.smul_apply, hstep2, smul_eq_mul, mul_one]
  ring

/-- The walk-dimension coordinates of the two endpoints, ordered. -/
theorem spec_lo_lt_hi (a b : Point) (dim : Fin 11) (hne : a dim ≠ b dim) :
    spec_lo a b dim dim < spec_hi a b dim dim := by
  rw [spec_lo, spec_hi]
  by_cases hgt : b dim < a dim
  · rw [if_pos hgt, if_pos hgt]
    exact hgt
  · rw [if_neg hgt, if_neg hgt]
    exact lt_of_le_of_ne (not_lt.mp hgt) hne

/-- The step is 1 in the walk dimension whenever the edge is non-degenerate. -/
theorem spec_step_dim (a b : Point) (dim : Fin 11) (hne : a dim ≠ b dim) :
    spec_step a b dim dim = 1 := by
  rw [spec_step]
  exact div_self (sub_ne_zero.mpr (ne_of_gt (spec_lo_lt_hi a b dim hne)))

/-- Claim C6: for a degenerate edge (equal walk-dimension coordinates) `dda`
yields no samples; otherwise it yields exactly the samples
`lo + (ceil(lo_d) - lo_d + k) * step` for `k = 0, 1, ...`, whose
walk-dimension coordinates are the integers `ceil(lo_d) + k` strictly below
`hi_d`, with `step = (hi - lo) / (hi_d - lo_d)` over the full attribute
vector. -/
theorem dda_spec (a b : Point) (dim : Fin 11) :
    (a dim = b dim → dda a b dim = []) ∧
    (a dim ≠ b dim →
      dda a b dim = spec_dda_samples a b dim ∧
      ∀ k : ℕ, k < spec_count a b dim →
        spec_sample a b dim k dim = (⌈spec_lo a b dim dim⌉ : ℚ) + (k : ℚ) ∧
        spec_sample a b dim k dim < spec_hi a b dim dim) := by
  constructor
  · intro heq
    rw [dda, dif_pos heq]
  · intro hne
    have hstep := spec_step_dim a b dim hne
    have hsd : ∀ k : ℕ, spec_sample a b dim k dim =
        (⌈spec_lo a b dim dim⌉ : ℚ) + (k : ℚ) := by
      intro k
      rw [spec_sample, Pi.add_apply, Pi.smul_apply, hstep, smul_eq_mul, mul_one]
      ring
    refine ⟨?_, fun k hk => ⟨hsd k, ?_⟩⟩
    · by_cases hgt : b dim < a dim
      · rw [dda, dif_neg hne, dif_pos hgt, dda_sorted_unroll]
        rw [spec_dda_samples]
        rw [show spec_count a b dim = (⌈a dim⌉ - ⌈b dim⌉).toNat by
          simp only [spec_count, spec_lo, spec_hi, if_pos hgt]]
        apply List.map_congr_left
        intro k _
        funext i
        simp only [spec_sample, spec_step, spec_lo, spec_hi, if_pos hgt,
          Pi.add_apply, Pi.smul_apply, Pi.sub_apply, smul_eq_mul]
        ring
      · rw [dda, dif_neg hne, dif_neg hgt, dda_sorted_unroll]
        rw [spec_dda_samples]
        rw [show spec_count a b dim = (⌈b dim⌉ - ⌈a dim⌉).toNat by
          simp only [spec_count, spec_lo, spec_hi, if_neg hgt]]
        apply List.map_congr_left
        intro k _
        funext i
        simp only [spec_sample, spec_step, spec_lo, spec_hi, if_neg hgt,
          Pi.add_apply, Pi.smul_apply, Pi.sub_apply, smul_eq_mul]
        ring
    · rw [hsd k]
      have hint : ⌈spec_lo a b dim dim⌉ + (k : ℤ) < ⌈spec_hi a b dim dim⌉ := by
        rw [spec_count] at hk
        omega
      have hq : ((⌈spec_lo a b dim dim⌉ + (k : ℤ) : ℤ) : ℚ) <
          spec_hi a b dim dim := Int.lt_ceil.mp hint
      calc (⌈spec_lo a b dim dim⌉ : ℚ) + (k : ℚ)
          = ((⌈spec_lo a b dim dim⌉ + (k : ℤ) : ℤ) : ℚ) := by push_cast; ring
        _ < spec_hi a b dim dim := hq

/-- Witness for claim C6 at a concrete non-degenerate edge from the default
vertex to a vertex with x-coordinate 1, walking dimension 0. -/
theorem dda_spec_witness :
    defaultPoint 0 ≠ clipSampleA 0 ∧
      dda defaultPoint clipSampleA 0 = spec_dda_samples defaultPoint clipSampleA 0 := by
  have hne : defaultPoint 0 ≠ clipSampleA 0 := by
    show (0 : ℚ) ≠ 1
    norm_num
  exact ⟨hne, ((dda_spec defaultPoint clipSampleA 0).2 hne).1⟩
/-- An RGBA color as a 4-component vector, matching the flat ndarray layout
`[r, g, b, a]` handled by `blend_alpha`. -/
abbrev Vec4 : Type := Fin 4 → ℚ

/-- The static method `Rasterizer.blend_alpha`: compute
`new_alpha = srcA + dstA - dstA * srcA` and the premultiplied combination,
divide by `new_alpha` when it is positive (overwriting component 3 with
`new_alpha`), and return transparent black otherwise. -/
def blend_alpha (source destination : Vec4) : Vec4 :=
  let source_alpha := source 3
  let destination_alpha := destination 3
  let new_alpha := source_alpha + destination_alpha - destination_alpha * source_alpha
  let premultiplied_rgb := fun i =>
    source_alpha * source i + (1 - source_alpha) * destination_alpha * destination i
  if 0 < new_alpha then
    Function.update (fun i => premultiplied_rgb i / new_alpha) 3 new_alpha
  else
    fun _ => 0

/-- Claim C8: `blend_alpha` implements the non-premultiplied over operator:
for inputs with components in the unit interval, the result alpha is
`srcA + dstA - dstA*srcA`, the rgb components are
`(srcA*srcRGB + (1-srcA)*dstA*dstRGB) / newAlpha` whenever `newAlpha` is
nonzero (the division is guarded by the positivity test, so no division by
zero occurs), the result is transparent black when `newAlpha = 0`, and an
opaque source is returned exactly. -/
theorem blend_alpha_spec (s d : Vec4)
    (hs : ∀ i : Fin 4, 0 ≤ s i ∧ s i ≤ 1) (hd : ∀ i : Fin 4, 0 ≤ d i ∧ d i ≤ 1) :
    blend_alpha s d 3 = s 3 + d 3 - d 3 * s 3 ∧
    (s 3 + d 3 - d 3 * s 3 = 0 → blend_alpha s d = fun _ => 0) ∧
    (s 3 + d 3 - d 3 * s 3 ≠ 0 → ∀ i : Fin 4, i ≠ 3 →
      blend_alpha s d i =
        (s 3 * s i + (1 - s 3) * d 3 * d i) / (s 3 + d 3 - d 3 * s 3)) ∧
    (s 3 = 1 → blend_alpha s d = s) := by
  have hna : 0 ≤ s 3 + d 3 - d 3 * s 3 := by
    nlinarith [(hs 3).1, (hs 3).2, (hd 3).1, (hd 3).2]
  refine ⟨?_, ?_, ?_, ?_⟩
  · by_cases hpos : 0 < s 3 + d 3 - d 3 * s 3
    · simp only [blend_alpha]
      rw [if_pos hpos, Function.update_same]
    · have h0 : s 3 + d 3 - d 3 * s 3 = 0 := le_antisymm (not_lt.mp hpos) hna
      simp only [blend_alpha]
      rw [if_neg hpos, h0]
  · intro h0
    simp only [blend_alpha]
    rw [if_neg (by rw [h0]; exact lt_irrefl 0)]
  · intro hne i hi
    have hpos : 0 < s 3 + d 3 - d 3 * s 3 := lt_of_le_of_ne hna (Ne.symm hne)
    simp only [blend_alpha]
    rw [if_pos hpos, Function.update_noteq hi]
  · intro hs3
    have hone : s 3 + d 3 - d 3 * s 3 = 1 := by rw [hs3]; ring
    have hpos : 0 < s 3 + d 3 - d 3 * s 3 := by rw [hone]; norm_num
    simp only [blend_alpha]
    rw [if_pos hpos]
    funext i
    by_cases hi : i = 3
    · subst hi
      rw [Function.update_same, hone]
      exact hs3.symm
    · rw [Function.update_noteq hi, hone, hs3]
      ring

/-- Concrete opaque source color for the blend witness. -/
def blendSrc : Vec4 := ![1, 0, 0, 1]

/-- Concrete background color for the blend witness. -/
def blendDst : Vec4 := ![0, 1, 0, 1]

/-- Witness for claim C8: compositing the opaque color `blendSrc` over the
background `blendDst` returns exactly `blendSrc`. -/
theorem blend_alpha_spec_witness :
    (∀ i : Fin 4, 0 ≤ blendSrc i ∧ blendSrc i ≤ 1) ∧
    (∀ i : Fin 4, 0 ≤ blendDst i ∧ blendDst i ≤ 1) ∧
    blendSrc 3 = 1 ∧ blend_alpha blendSrc blendDst = blendSrc := by
  have hs : ∀ i : Fin 4, 0 ≤ blendSrc i ∧ blendSrc i ≤ 1 := by decide
  have hd : ∀ i : Fin 4, 0 ≤ blendDst i ∧ blendDst i ≤ 1 := by decide
  have h3 : blendSrc 3 = 1 := by decide
  exact ⟨hs, hd, h3, (blend_alpha_spec blendSrc blendDst hs hd).2.2.2 h3⟩

/-- The buffer names accepted by `Rasterizer.set_buffer`. -/
inductive BufferName
  | position
  | color
  | texture_coord
  | point_size
deriving DecidableEq

/-- The record slice (start, stop) written by the attribute setter of
`point.py` for each buffer name. -/
def buffer_slice : BufferName → ℕ × ℕ
  | .position => (0, 4)
  | .color => (4, 8)
  | .texture_coord => (8, 10)
  | .point_size => (10, 11)

/-- The call `setattr(point, buffer_name, value)` of `set_buffer`: write the
value tuple into the named slice of the record, keeping other components. -/
def set_attr (p : Point) (name : BufferName) (value : List ℚ) : Point :=
  fun i =>
    if (buffer_slice name).1 ≤ (i : ℕ) ∧ (i : ℕ) < (buffer_slice name).2 then
      value.getD ((i : ℕ) - (buffer_slice name).1) 0
    else p i

/-- The loop `for point, value in zip(self.points, values)` of `set_buffer`:
apply the setter pairwise; the tail of the longer list is untouched. -/
def apply_values (points : List Point) (name : BufferName)
    (values : List (List ℚ)) : List Point :=
  match points, values with
  | [], _ => []
  | ps, [] => ps
  | p :: ps, v :: vs => set_attr p name v :: apply_values ps name vs

/-- The method `Rasterizer.set_buffer`: reallocate the vertex array to fresh
default vertices only when the incoming value list is strictly longer
(`if len(self.points) < len(values)`), then apply the values pairwise. -/
def set_buffer (points : List Point) (name : BufferName)
    (values : List (List ℚ)) : List Point :=
  apply_values
    (if points.length < values.length then
      List.replicate values.length defaultPoint
    else points)
    name values

theorem length_apply_values (ps : List Point) (name : BufferName) :
    ∀ vs, (apply_values ps name vs).length = ps.length := by
  induction ps with
  | nil => intro vs; cases vs <;> rfl
  | cons p ps ih =>
    intro vs
    cases vs with
    | nil => rfl
    | cons v vs => simp [apply_values, ih vs]

theorem apply_values_getElem_ge (ps : List Point) (name : BufferName) :
    ∀ (vs : List (List ℚ)) (i : ℕ), vs.length ≤ i →
      (apply_values ps name vs)[i]? = ps[i]? := by
  induction ps with
  | nil => intro vs i h; cases vs <;> rfl
  | cons p ps ih =>
    intro vs i h
    cases vs with
    | nil => rfl
    | cons v vs =>
      cases i with
      | zero => simp at h
      | succ i =>
        show (set_attr p name v :: apply_values ps name vs)[i + 1]? = (p :: ps)[i + 1]?
        rw [List.getElem?_cons_succ, List.getElem?_cons_succ]
        exact ih vs i (by simpa using h)

theorem apply_values_getElem_lt (ps : List Point) (name : BufferName) :
    ∀ (vs : List (List ℚ)) (i : ℕ) (v : List ℚ) (p : Point),
      vs[i]? = some v → ps[i]? = some p →
      (apply_values ps name vs)[i]? = some (set_attr p name v) := by
  induction ps with
  | nil => intro vs i v p hv hp; simp at hp
  | cons q ps ih =>
    intro vs i v p hv hp
    cases vs with
    | nil => simp at hv
    | cons w vs =>
      cases i with
      | zero =>
        rw [List.getElem?_cons_zero, Option.some_inj] at hv hp
        subst hv
        subst hp
        show (set_attr q name w :: apply_values ps name vs)[0]? =
          some (set_attr q name w)
        rw [List.getElem?_cons_zero]
      | succ i =>
        rw [List.getElem?_cons_succ] at hv hp
        show (set_attr q name w :: apply_values ps name vs)[i + 1]? = _
        rw [List.getElem?_cons_succ]
        exact ih vs i v p hv hp

/-- A vertex whose color attribute was bound to opaque red earlier. -/
def colorSample : Point := set_attr defaultPoint BufferName.color [1, 0, 0, 1]

/-- Claim C3 (counterexample): re-binding the position buffer of a
two-vertex array with a one-element value list does not reallocate the
array: the result still has two vertices (not one), and the second vertex
keeps its previously bound color attribute unchanged. -/
theorem set_buffer_shrink_counterexample :
    set_buffer [defaultPoint, colorSample] BufferName.position [[5, 0, 0, 1]] =
      [set_attr defaultPoint BufferName.position [5, 0, 0, 1], colorSample] ∧
    (set_buffer [defaultPoint, colorSample] BufferName.position
      [[5, 0, 0, 1]]).length ≠ 1 := by
  constructor
  · rfl
  · intro h
    rw [show (set_buffer [defaultPoint, colorSample] BufferName.position
      [[5, 0, 0, 1]]).length = 2 from rfl] at h
    exact absurd h (by norm_num)

/-- Claim C3 (amended): `set_buffer` reallocates the whole vertex array to
fresh default vertices only when the new value list is strictly longer than
the current array; when it is equal or shorter, the array keeps its length,
vertices beyond the value list are untouched (earlier attributes retained),
and each paired vertex has only the named slice overwritten. -/
theorem set_buffer_amended (points : List Point) (name : BufferName)
    (values : List (List ℚ)) :
    (points.length < values.length →
      (set_buffer points name values).length = values.length ∧
      ∀ (i : ℕ) (v : List ℚ), values[i]? = some v →
        (set_buffer points name values)[i]? =
          some (set_attr defaultPoint name v)) ∧
    (values.length ≤ points.length →
      (set_buffer points name values).length = points.length ∧
      (∀ i : ℕ, values.length ≤ i →
        (set_buffer points name values)[i]? = points[i]?) ∧
      (∀ (i : ℕ) (v : List ℚ) (p : Point),
        values[i]? = some v → points[i]? = some p →
        (set_buffer points name values)[i]? = some (set_attr p name v))) := by
  constructor
  · intro hlt
    rw [set_buffer, if_pos hlt]
    refine ⟨by rw [length_apply_values, List.length_replicate], ?_⟩
    intro i v hv
    have hi : i < values.length := by
      by_contra hge
      rw [List.getElem?_eq_none (not_lt.mp hge)] at hv
      exact Option.noConfusion hv
    apply apply_values_getElem_lt _ name _ _ _ _ hv
    rw [List.getElem?_replicate]
    rw [if_pos hi]
  · intro hle
    rw [set_buffer, if_neg (not_lt.mpr hle)]
    exact ⟨length_apply_values points name values,
      fun i h => apply_values_getElem_ge points name values i h,
      fun i v p hv hp => apply_values_getElem_lt points name values i v p hv hp⟩

/-- Witness for the amended claim C3: applying a one-element position list to
a two-vertex array keeps the length at two and retains the second vertex
with its earlier color binding. -/
theorem set_buffer_amended_witness :
    ([[(5 : ℚ), 0, 0, 1]].length ≤ [defaultPoint, colorSample].length) ∧
    (set_buffer [defaultPoint, colorSample] BufferName.position
      [[5, 0, 0, 1]]).length = [defaultPoint, colorSample].length ∧
    (set_buffer [defaultPoint, colorSample] BufferName.position
      [[5, 0, 0, 1]])[1]? = some colorSample := by
  have h := (set_buffer_amended [defaultPoint, colorSample] BufferName.position
    [[5, 0, 0, 1]]).2 (by norm_num)
  refine ⟨by norm_num, h.1, ?_⟩
  rw [h.2.1 1 (by norm_num)]
  rfl

/-- The store of live vertex objects: Python object identity is modelled by
an index into this list; allocation appends. -/
abbrev Heap : Type := List Point

/-- Read the vertex object behind a reference. -/
def heap_read (h : Heap) (r : ℕ) : Point := h.getD r defaultPoint

/-- Overwrite the vertex object behind a reference in place. -/
def heap_write (h : Heap) (r : ℕ) (v : Point) : Heap := h.set r v

/-- Allocate a fresh vertex object, returning the heap and new reference. -/
def heap_alloc (h : Heap) (v : Point) : Heap × ℕ := (h ++ [v], h.length)

/-- The mode flags and uniform state of a `Rasterizer` used on the draw
path. -/
structure Config where
  hyperbolic : Bool
  cull_backfaces : Bool
  frustum_clipping : Bool
  uniform_matrix : Option (Fin 4 → Fin 4 → ℚ)
  width : ℕ
  height : ℕ
  fsaa : ℕ

/-- The mutable state of a `Rasterizer` touched by draw calls: the vertex
object heap, the `points` buffer (references into the heap), the `elements`
index list, and the fragments appended to the frame buffer (sample
coordinates paired with fragment records). -/
structure RState where
  heap : Heap
  points : List ℕ
  elements : List ℕ
  frame : List ((ℕ × ℕ) × Point)

/-- The product `np.dot(uniform_matrix, position)` for a 4x4 matrix. -/
def mat_vec (m : Fin 4 → Fin 4 → ℚ) (v : Fin 4 → ℚ) : Fin 4 → ℚ :=
  fun i => m i 0 * v 0 + m i 1 * v 1 + m i 2 * v 2 + m i 3 * v 3

/-- The z component of `np.cross(p1[:3] - p0[:3], p2[:3] - p1[:3])`, which
equals the `np.dot(normal, (0, 0, 1))` back-face test value. -/
def backface_normal_z (p0 p1 p2 : Point) : ℚ :=
  (p1 0 - p0 0) * (p2 1 - p1 1) - (p1 1 - p0 1) * (p2 0 - p1 0)

/-- The method `Rasterizer.draw_triangle` on already-copied vertex records:
assert three vertices, optionally cull back faces, then evaluate
`point.divide_by_w(self.hyperbolic)`. That call always raises `TypeError`,
because `Point.divide_by_w` accepts no argument besides `self`
(rasterizer.py line 196 versus point.py line 61), so control never reaches
the scanline walk and no fragment is appended; the state is returned
unchanged together with the raised exception. -/
def draw_triangle (cfg : Config) (st : RState) (pts : List Point) :
    RState × Except String Unit :=
  if pts.length ≠ 3 then (st, .error "AssertionError")
  else if cfg.cull_backfaces then
    if 0 ≤ backface_normal_z (pts.getD 0 defaultPoint) (pts.getD 1 defaultPoint)
        (pts.getD 2 defaultPoint) then
      (st, .ok ())
    else
      (st, .error "TypeError: divide_by_w() takes 1 positional argument but 2 were given")
  else
    (st, .error "TypeError: divide_by_w() takes 1 positional argument but 2 were given")

/-- The copy loop `points = [point.copy() for point in points]`: allocate a
fresh copy of every referenced vertex object. -/
def alloc_copies : Heap → List ℕ → Heap × List ℕ
  | h, [] => (h, [])
  | h, r :: rs =>
    let a := heap_alloc h (heap_read h r)
    let rest := alloc_copies a.1 rs
    (rest.1, a.2 :: rest.2)

/-- The uniform-matrix loop of `clip_and_draw_triangle`: overwrite the
position slice of every copied vertex with the transformed position. -/
def apply_uniform (m : Fin 4 → Fin 4 → ℚ) : Heap → List ℕ → Heap
  | h, [] => h
  | h, r :: rs =>
    apply_uniform m
      (heap_write h r
        (Point.set_position (heap_read h r)
          (mat_vec m (Point.position (heap_read h r)))))
      rs

/-- The draw loop over the clipped triangle list, stopping at the first
exception. -/
def draw_triangle_list (cfg : Config) :
    RState → List (List Point) → RState × Except String Unit
  | st, [] => (st, .ok ())
  | st, t :: ts =>
    match draw_triangle cfg st t with
    | (st1, .ok _) => draw_triangle_list cfg st1 ts
    | (st1, .error e) => (st1, .error e)

/-- The uniform-matrix step of `clip_and_draw_triangle`: transform the
copies when a matrix is bound, otherwise leave the heap alone. -/
def transformed_heap (cfg : Config) (h : Heap) (copies : List ℕ) : Heap :=
  match cfg.uniform_matrix with
  | none => h
  | some m => apply_uniform m h copies

/-- The tail of `clip_and_draw_triangle` after the copy and transform steps:
either draw directly (clipping disabled) or run the six-plane clip loop and
draw every resulting triangle. -/
def clip_stage (cfg : Config) (st2 : RState) (pts : List Point) :
    RState × Except String Unit :=
  if cfg.frustum_clipping = false then
    draw_triangle cfg st2 pts
  else
    match clip_all_planes pts with
    | .error e => (st2, .error e)
    | .ok triangles => draw_triangle_list cfg st2 triangles

/-- The method `Rasterizer.clip_and_draw_triangle`: copy the touched vertex
objects, transform the copies by the optional uniform matrix, then clip and
draw. -/
def clip_and_draw_triangle (cfg : Config) (st : RState) (refs : List ℕ) :
    RState × Except String Unit :=
  let copied := alloc_copies st.heap refs
  let h2 := transformed_heap cfg copied.1 copied.2
  clip_stage cfg { st with heap := h2 } (copied.2.map (heap_read h2))

/-- The loop of `draw_arrays_triangles` over the slice starts
`range(first, first + count, 3)`. -/
def draw_arrays_go (cfg : Config) :
    RState → List ℕ → RState × Except String Unit
  | st, [] => (st, .ok ())
  | st, i :: rest =>
    match clip_and_draw_triangle cfg st ((st.points.drop i).take 3) with
    | (st1, .ok _) => draw_arrays_go cfg st1 rest
    | (st1, .error e) => (st1, .error e)

/-- The method `Rasterizer.draw_arrays_triangles` (the unused `line`
argument of the source is kept). -/
def draw_arrays_triangles (cfg : Config) (st : RState)
    (first count line : ℕ) : RState × Except String Unit :=
  draw_arrays_go cfg st ((List.range ((count + 2) / 3)).map (fun k => first + 3 * k))

/-- The element lookup `[self.points[element] for element in elements]`,
raising `IndexError` on an out-of-range index. -/
def resolve_elements (points : List ℕ) : List ℕ → Except String (List ℕ)
  | [] => .ok []
  | e :: es =>
    match points[e]? with
    | none => .error "IndexError"
    | some r => do
      let rs ← resolve_elements points es
      pure (r :: rs)

/-- The loop of `draw_elements_triangles` over the slice starts
`range(offset, offset + count, 3)`. -/
def draw_elements_go (cfg : Config) :
    RState → List ℕ → RState × Except String Unit
  | st, [] => (st, .ok ())
  | st, i :: rest =>
    match resolve_elements st.points ((st.elements.drop i).take 3) with
    | .error e => (st, .error e)
    | .ok refs =>
      match clip_and_draw_triangle cfg st refs with
      | (st1, .ok _) => draw_elements_go cfg st1 rest
      | (st1, .error e) => (st1, .error e)

/-- The method `Rasterizer.draw_elements_triangles`. -/
def draw_elements_triangles (cfg : Config) (st : RState)
    (count offset : ℕ) : RState × Except String Unit :=
  draw_elements_go cfg st ((List.range ((count + 2) / 3)).map (fun k => offset + 3 * k))

/-- The loop body of `Rasterizer.draw_arrays_points` as written in the
source: look up the vertex, read its point size, make four corner copies,
and then fall through without emitting anything — the method body ends
after building the corner copies, so no fragment is ever produced. -/
def draw_points_go (cfg : Config) :
    RState → List ℕ → RState × Except String Unit
  | st, [] => (st, .ok ())
  | st, i :: rest =>
    match st.points[i]? with
    | none => (st, .error "IndexError")
    | some r =>
      let p := heap_read st.heap r
      let _size := p 10
      let h1 := (heap_alloc st.heap p).1
      let h2 := (heap_alloc h1 p).1
      let h3 := (heap_alloc h2 p).1
      let h4 := (heap_alloc h3 p).1
      draw_points_go cfg { st with heap := h4 } rest

/-- The method `Rasterizer.draw_arrays_points` over
`range(first, first + count)`. -/
def draw_arrays_points (cfg : Config) (st : RState)
    (first count : ℕ) : RState × Except String Unit :=
  draw_points_go cfg st ((List.range count).map (fun k => first + k))

/-- All objects allocated before remain readable with unchanged values. -/
def heap_preserved (h0 h1 : Heap) : Prop :=
  h0.length ≤ h1.length ∧
    ∀ r : ℕ, r < h0.length → heap_read h1 r = heap_read h0 r

theorem heap_preserved_refl (h : Heap) : heap_preserved h h :=
  ⟨le_refl _, fun _ _ => rfl⟩

theorem heap_preserved_trans {h0 h1 h2 : Heap}
    (ha : heap_preserved h0 h1) (hb : heap_preserved h1 h2) :
    heap_preserved h0 h2 :=
  ⟨le_trans ha.1 hb.1,
    fun r hr => (hb.2 r (lt_of_lt_of_le hr ha.1)).trans (ha.2 r hr)⟩

theorem heap_alloc_preserves (h : Heap) (v : Point) :
    heap_preserved h (heap_alloc h v).1 := by
  refine ⟨by simp [heap_alloc], fun r hr => ?_⟩
  show (h ++ [v]).getD r defaultPoint = h.getD r defaultPoint
  rw [List.getD_eq_getElem?_getD, List.getD_eq_getElem?_getD,
    List.getElem?_append, if_pos hr]

theorem heap_write_preserves_below (h : Heap) (r : ℕ) (v : Point) (n : ℕ)
    (hn : n ≤ r) (q : ℕ) (hq : q < n) :
    heap_read (heap_write h r v) q = heap_read h q := by
  show (h.set r v).getD q defaultPoint = h.getD q defaultPoint
  rw [List.getD_eq_getElem?_getD, List.getD_eq_getElem?_getD,
    List.getElem?_set_ne (by omega)]

theorem alloc_copies_spec : ∀ (refs : List ℕ) (h : Heap),
    heap_preserved h (alloc_copies h refs).1 ∧
    ∀ nr ∈ (alloc_copies h refs).2, h.length ≤ nr := by
  intro refs
  induction refs with
  | nil =>
    intro h
    exact ⟨heap_preserved_refl h, by simp [alloc_copies]⟩
  | cons r rs ih =>
    intro h
    have h1 := heap_alloc_preserves h (heap_read h r)
    have h2 := ih (heap_alloc h (heap_read h r)).1
    constructor
    · simp only [alloc_copies]
      exact heap_preserved_trans h1 h2.1
    · simp only [alloc_copies]
      intro nr hnr
      rcases List.mem_cons.mp hnr with rfl | hmem
      · show h.length ≤ (heap_alloc h (heap_read h r)).2
        simp [heap_alloc]
      · exact le_trans h1.1 (h2.2 nr hmem)

theorem apply_uniform_preserves (m : Fin 4 → Fin 4 → ℚ) :
    ∀ (refs : List ℕ) (h : Heap) (n : ℕ), (∀ r ∈ refs, n ≤ r) →
      (apply_uniform m h refs).length = h.length ∧
      ∀ q, q < n → heap_read (apply_uniform m h refs) q = heap_read h q := by
  intro refs
  induction refs with
  | nil =>
    intro h n _
    exact ⟨rfl, fun _ _ => rfl⟩
  | cons r rs ih =>
    intro h n href
    have hr : n ≤ r := href r (List.mem_cons_self r rs)
    have ihh := ih
      (heap_write h r
        (Point.set_position (heap_read h r)
          (mat_vec m (Point.position (heap_read h r)))))
      n (fun x hx => href x (List.mem_cons_of_mem r hx))
    constructor
    · simp only [apply_uniform]
      rw [ihh.1]
      show (h.set r _).length = h.length
      rw [List.length_set]
    · intro q hq
      simp only [apply_uniform]
      rw [ihh.2 q hq]
      exact heap_write_preserves_below h r _ n hr q hq

theorem transformed_heap_preserves (cfg : Config) (h0 : Heap)
    (refs : List ℕ) :
    heap_preserved h0
      (transformed_heap cfg (alloc_copies h0 refs).1 (alloc_copies h0 refs).2) := by
  have hac := alloc_copies_spec refs h0
  rw [transformed_heap]
  cases cfg.uniform_matrix with
  | none => exact hac.1
  | some m =>
    have hau := apply_uniform_preserves m (alloc_copies h0 refs).2
      (alloc_copies h0 refs).1 h0.length hac.2
    exact ⟨by rw [hau.1]; exact hac.1.1,
      fun r hr => by rw [hau.2 r hr]; exact hac.1.2 r hr⟩

theorem draw_triangle_fst (cfg : Config) (st : RState) (pts : List Point) :
    (draw_triangle cfg st pts).1 = st := by
  rw [draw_triangle]
  split
  · rfl
  · split
    · split
      · rfl
      · rfl
    · rfl

theorem draw_triangle_list_fst (cfg : Config) :
    ∀ (ts : List (List Point)) (st : RState),
      (draw_triangle_list cfg st ts).1 = st := by
  intro ts
  induction ts with
  | nil => intro st; rfl
  | cons t ts ih =>
    intro st
    have hfst := draw_triangle_fst cfg st t
    rcases hdt : draw_triangle cfg st t with ⟨st1, res⟩
    rw [hdt] at hfst
    cases res with
    | ok u =>
      simp only [draw_triangle_list, hdt]
      rw [ih st1]
      exact hfst
    | error e =>
      simp only [draw_triangle_list, hdt]
      exact hfst

theorem clip_stage_fst (cfg : Config) (st2 : RState) (pts : List Point) :
    (clip_stage cfg st2 pts).1 = st2 := by
  rw [clip_stage]
  split
  · exact draw_triangle_fst cfg st2 pts
  · split
    · rfl
    · exact draw_triangle_list_fst cfg _ st2

theorem clip_and_draw_preserves (cfg : Config) (st : RState) (refs : List ℕ) :
    heap_preserved st.heap (clip_and_draw_triangle cfg st refs).1.heap ∧
    (clip_and_draw_triangle cfg st refs).1.points = st.points ∧
    (clip_and_draw_triangle cfg st refs).1.elements = st.elements := by
  simp only [clip_and_draw_triangle]
  rw [clip_stage_fst]
  refine ⟨?_, rfl, rfl⟩
  exact transformed_heap_preserves cfg st.heap refs

theorem draw_arrays_go_preserves (cfg : Config) :
    ∀ (l : List ℕ) (st : RState),
      heap_preserved st.heap (draw_arrays_go cfg st l).1.heap ∧
      (draw_arrays_go cfg st l).1.points = st.points ∧
      (draw_arrays_go cfg st l).1.elements = st.elements := by
  intro l
  induction l with
  | nil => intro st; exact ⟨heap_preserved_refl _, rfl, rfl⟩
  | cons i rest ih =>
    intro st
    have hc := clip_and_draw_preserves cfg st ((st.points.drop i).take 3)
    rcases hcd : clip_and_draw_triangle cfg st ((st.points.drop i).take 3)
      with ⟨st1, res⟩
    rw [hcd] at hc
    cases res with
    | ok u =>
      have hrest := ih st1
      simp only [draw_arrays_go, hcd]
      refine ⟨heap_preserved_trans hc.1 hrest.1, ?_, ?_⟩
      · rw [hrest.2.1, hc.2.1]
      · rw [hrest.2.2, hc.2.2]
    | error e =>
      simp only [draw_arrays_go, hcd]
      exact hc

theorem draw_elements_go_preserves (cfg : Config) :
    ∀ (l : List ℕ) (st : RState),
      heap_preserved st.heap (draw_elements_go cfg st l).1.heap ∧
      (draw_elements_go cfg st l).1.points = st.points ∧
      (draw_elements_go cfg st l).1.elements = st.elements := by
  intro l
  induction l with
  | nil => intro st; exact ⟨heap_preserved_refl _, rfl, rfl⟩
  | cons i rest ih =>
    intro st
    rcases hre : resolve_elements st.points ((st.elements.drop i).take 3)
      with e | refs
    · rw [show draw_elements_go cfg st (i :: rest) = (st, Except.error e) from by
        simp only [draw_elements_go, hre]]
      exact ⟨heap_preserved_refl _, rfl, rfl⟩
    · have hc := clip_and_draw_preserves cfg st refs
      rcases hcd : clip_and_draw_triangle cfg st refs with ⟨st1, res⟩
      rw [hcd] at hc
      cases res with
      | ok u =>
        have hrest := ih st1
        simp only [draw_elements_go, hre, hcd]
        refine ⟨heap_preserved_trans hc.1 hrest.1, ?_, ?_⟩
        · rw [hrest.2.1, hc.2.1]
        · rw [hrest.2.2, hc.2.2]
      | error e =>
        simp only [draw_elements_go, hre, hcd]
        exact hc

theorem draw_points_go_frame (cfg : Config) :
    ∀ (l : List ℕ) (st : RState),
      (draw_points_go cfg st l).1.frame = st.frame ∧
      (draw_points_go cfg st l).1.points = st.points := by
  intro l
  induction l with
  | nil => intro st; exact ⟨rfl, rfl⟩
  | cons i rest ih =>
    intro st
    rcases hp : st.points[i]? with _ | r
    · rw [show draw_points_go cfg st (i :: rest) =
          (st, Except.error "IndexError") from by
        simp only [draw_points_go, hp]]
      exact ⟨rfl, rfl⟩
    · simp only [draw_points_go, hp]
      exact ⟨(ih _).1, (ih _).2⟩

/-- A rasterizer configuration with every optional mode disabled. -/
def plainConfig : Config :=
  { hyperbolic := false, cull_backfaces := false, frustum_clipping := false,
    uniform_matrix := none, width := 4, height := 4, fsaa := 1 }

/-- An empty rasterizer state. -/
def plainState : RState :=
  { heap := [], points := [], elements := [], frame := [] }

/-- A populated rasterizer state: three vertex objects bound as the vertex
buffer and indexed by the elements list. -/
def bufferState : RState :=
  { heap := [colorSample, defaultPoint, clipSampleA],
    points := [0, 1, 2], elements := [0, 1, 2], frame := [] }

/-- Claim C1 (code bug): with hyperbolic interpolation disabled, a
`draw_triangle` call on a full triangle does not skip the divide step and
complete normally; it raises `TypeError`, because the call
`point.divide_by_w(self.hyperbolic)` passes an argument that
`Point.divide_by_w` does not accept. -/
theorem draw_triangle_typeerror_when_hyperbolic_disabled :
    plainConfig.hyperbolic = false ∧
    draw_triangle plainConfig plainState
        [defaultPoint, clipSampleA, clipSampleB] =
      (plainState,
        Except.error
          "TypeError: divide_by_w() takes 1 positional argument but 2 were given") :=
  ⟨rfl, rfl⟩

/-- Claim C2 (code bug): `draw_arrays_points` appends no fragment for any
state and vertex range: the loop body builds the point-size value and the
four corner copies and then ends, so the frame buffer (and the vertex
buffer) after the call is exactly what it was before. -/
theorem draw_arrays_points_appends_nothing (cfg : Config) (st : RState)
    (first count : ℕ) :
    (draw_arrays_points cfg st first count).1.frame = st.frame ∧
    (draw_arrays_points cfg st first count).1.points = st.points :=
  draw_points_go_frame cfg ((List.range count).map (fun k => first + k)) st

/-- Claim C9: a triangle draw call (`drawArraysTriangles` or
`drawElementsTriangles`) never changes the canonical vertex buffer: the
call copies the vertices it touches before the uniform-matrix transform and
the divide, so afterwards the buffer holds the same references and every
previously allocated vertex object holds the same 11 component values. -/
theorem triangle_draws_preserve_buffer (cfg : Config) (st : RState)
    (first count line offset : ℕ) (r : ℕ) (hr : r < st.heap.length) :
    heap_read (draw_arrays_triangles cfg st first count line).1.heap r =
      heap_read st.heap r ∧
    (draw_arrays_triangles cfg st first count line).1.points = st.points ∧
    heap_read (draw_elements_triangles cfg st count offset).1.heap r =
      heap_read st.heap r ∧
    (draw_elements_triangles cfg st count offset).1.points = st.points := by
  have ha := draw_arrays_go_preserves cfg
    ((List.range ((count + 2) / 3)).map (fun k => first + 3 * k)) st
  have he := draw_elements_go_preserves cfg
    ((List.range ((count + 2) / 3)).map (fun k => offset + 3 * k)) st
  exact ⟨ha.1.2 r hr, ha.2.1, he.1.2 r hr, he.2.1⟩

/-- Witness for claim C9 at a concrete three-vertex buffer and a
`drawArraysTriangles(0, 3)` call. -/
theorem triangle_draws_preserve_buffer_witness :
    0 < bufferState.heap.length ∧
    heap_read (draw_arrays_triangles plainConfig bufferState 0 3 7).1.heap 0 =
      heap_read bufferState.heap 0 ∧
    (draw_arrays_triangles plainConfig bufferState 0 3 7).1.points =
      bufferState.points := by
  have h := triangle_draws_preserve_buffer plainConfig bufferState 0 3 7 0 0
    (by decide)
  exact ⟨by decide, h.1, h.2.1⟩

/-- The position slice of the round trip stays as the divide left it. -/
theorem undo_divide_position (p : Point) (i : Fin 11) (hi : (i : ℕ) < 4) :
    Point.undo_divide_by_w (Point.divide_by_w p) i = Point.divide_by_w p i := by
  simp only [Point.undo_divide_by_w, Point.set_position]
  rw [dif_pos hi]
  rfl

/-- A concrete vertex with position `(2, 0, 0, 2)` and default attributes. -/
def roundTripSample : Point := ![2, 0, 0, 2, 0, 0, 0, 1, 0, 0, 0]

/-- Claim C4 (counterexample): the vertex `roundTripSample` has nonzero
`position.w`, yet `undo_divide_by_w (divide_by_w v)` differs from `v`
(component 0 becomes `1`, not `2`): the round trip is not the identity on
the position slice. -/
theorem divide_undo_roundtrip_counterexample :
    roundTripSample 3 ≠ 0 ∧
      Point.undo_divide_by_w (Point.divide_by_w roundTripSample) ≠ roundTripSample := by
  refine ⟨by decide, fun h => ?_⟩
  have h0 := congrFun h 0
  rw [undo_divide_position roundTripSample 0 (by decide)] at h0
  rw [Point.divide_by_w, Function.update_noteq (by decide)] at h0
  have e0 : roundTripSample 0 = 2 := rfl
  have e3 : roundTripSample 3 = 2 := rfl
  rw [e0, e3] at h0
  norm_num at h0

/-- Claim C4 (amended): for every vertex with nonzero `position.w`, the round
trip `undo_divide_by_w (divide_by_w v)` restores every non-position component
exactly, while the position slice is left as the divide produced it:
`(x/w, y/w, z/w, 1/w)`. -/
theorem divide_undo_roundtrip_amended (p : Point) (hw : p 3 ≠ 0) :
    (∀ i : Fin 11, 4 ≤ (i : ℕ) → Point.undo_divide_by_w (Point.divide_by_w p) i = p i) ∧
      Point.undo_divide_by_w (Point.divide_by_w p) 0 = p 0 / p 3 ∧
      Point.undo_divide_by_w (Point.divide_by_w p) 1 = p 1 / p 3 ∧
      Point.undo_divide_by_w (Point.divide_by_w p) 2 = p 2 / p 3 ∧
      Point.undo_divide_by_w (Point.divide_by_w p) 3 = 1 / p 3 := by
  refine ⟨fun i hi => undo_divide_attrs p hw i hi, ?_, ?_, ?_, ?_⟩
  · rw [undo_divide_position p 0 (by decide)]
    rw [Point.divide_by_w, Function.update_noteq (by decide)]
  · rw [undo_divide_position p 1 (by decide)]
    rw [Point.divide_by_w, Function.update_noteq (by decide)]
  · rw [undo_divide_position p 2 (by decide)]
    rw [Point.divide_by_w, Function.update_noteq (by decide)]
  · rw [undo_divide_position p 3 (by decide)]
    rw [Point.divide_by_w, Function.update_same]

/-- Witness for the amended claim C4 at the concrete vertex
`roundTripSample` (whose `w` is `2`). -/
theorem divide_undo_roundtrip_amended_witness :
    roundTripSample 3 ≠ 0 ∧
      Point.undo_divide_by_w (Point.divide_by_w roundTripSample) 3 =
        1 / roundTripSample 3 :=
  ⟨by decide, (divide_undo_roundtrip_amended roundTripSample (by decide)).2.2.2.2⟩

end Rasterizer
